import Mathlib

/-!
# Verification of the osblog RISC-V kernel core

A shallow embedding, in Lean 4, of the parts of the `sgmarz/osblog`
kernel that the specification's claims are about:

* the round-robin scheduler (`src/risc_v/src/sched.rs`),
* the timer arm of the machine trap handler (`src/risc_v/src/trap.rs`),
* pid assignment by the spawn routines and the ELF loader
  (`src/risc_v/src/process.rs`, `src/risc_v/src/elf.rs`),
* the ELF header checks and the exec system-call path
  (`src/risc_v/src/elf.rs`, `src/risc_v/src/syscall.rs`),
* process teardown (`impl Drop for Process`, `src/risc_v/src/process.rs`),
* the byte allocator (`src/risc_v/ch3/src/kmem.rs`),
* the three-level page-table walk (`page.rs` is not among the sources;
  it is modelled from the specification, as marked below).

Mutable global state (the process table, `NEXT_PID`, the heap block
list) is threaded explicitly.  Loops that the source bounds only by
control flow are given an explicit fuel argument; exhausting the fuel
models non-termination of the source loop.  Machine integers are
modelled as `Nat` with an explicit modulus where overflow matters
(`NEXT_PID` is a `u16`).
-/

namespace OsBlog

/-! ## Scheduler (`src/risc_v/src/sched.rs`, `src/risc_v/src/process.rs`)

`ProcessState` is the four-state lifecycle enum of `process.rs`.
`Process` is the projection of the `Process` struct onto the fields the
scheduler reads: the pid, the address of the trap frame
(`get_frame_address` returns `self.frame as usize`), the state, and the
`sleep_until` instant. -/

inductive ProcessState where
  | Running
  | Sleeping
  | Waiting
  | Dead
deriving DecidableEq

structure Process where
  pid : Nat
  frameAddr : Nat
  state : ProcessState
  sleepUntil : Nat
deriving DecidableEq

/-- Rotation of the table: `VecDeque::rotate_left(1)` moves the front element to the back.
(The source would panic on an empty deque; the table always holds the
init process, and every theorem that enters the scan assumes a
non-empty table.) -/
def rotl (pl : List Process) : List Process :=
  match pl with
  | [] => []
  | x :: xs => xs ++ [x]

/-- The condition under which the scan of `schedule` stops at a process:
it is `Running`, or `Sleeping` with `sleep_until <= get_mtime()`.
`mtime` is the value of the machine timer, held constant over the scan
in this embedding. -/
def qualifies (mtime : Nat) (p : Process) : Bool :=
  p.state = ProcessState.Running
    || (p.state = ProcessState.Sleeping && p.sleepUntil ≤ mtime)

/-- The `'procfindloop` of `schedule`: rotate the table left by one,
then look at the front process; a `Running` front is returned as is, a
`Sleeping` front whose wake time has elapsed is promoted to `Running`
and returned; otherwise loop.  `fuel` bounds the number of iterations;
`none` means the fuel ran out, i.e. the source loop has not terminated
within that many iterations.  The result carries the returned
`frame_addr` and the table as left behind. -/
def schedLoop (mtime : Nat) : Nat → List Process → Option (Nat × List Process)
  | 0, _ => none
  | fuel + 1, pl =>
    match rotl pl with
    | [] => schedLoop mtime fuel []
    | p :: rest =>
      match p.state with
      | ProcessState.Running => some (p.frameAddr, p :: rest)
      | ProcessState.Sleeping =>
        if p.sleepUntil ≤ mtime then
          some (p.frameAddr, { p with state := ProcessState.Running } :: rest)
        else
          schedLoop mtime fuel (p :: rest)
      | _ => schedLoop mtime fuel (p :: rest)

/-- The function `schedule()` of `sched.rs`.  `lockFree` is the outcome of
`PROCESS_LIST_MUTEX.try_lock()`: when the lock is already held the
function returns `0` at once, touching neither the lock state nor the
table.  `tbl` is `PROCESS_LIST`; when `take()` yields `None` the
function returns the initial `frame_addr` value `0x1111`.  Otherwise
the scan loop runs; `none` propagates fuel exhaustion (the source loop
still spinning). -/
def schedule (lockFree : Bool) (tbl : Option (List Process)) (mtime fuel : Nat) :
    Option (Nat × Option (List Process)) :=
  if lockFree then
    match tbl with
    | none => some (0x1111, none)
    | some pl =>
      match schedLoop mtime fuel pl with
      | none => none
      | some (fa, pl2) => some (fa, some pl2)
  else
    some (0, tbl)

/-- The timer arm (cause 7, asynchronous) of `m_trap` in `trap.rs`:
`let new_frame = schedule(); if new_frame != 0 { rust_switch_to_user(new_frame); }`
and `m_trap` returns `epc` unchanged.  The result carries the returned
program counter, the frame switched into (`none` meaning no switch: the
interrupted frame resumes), and the table afterwards. -/
def timerTick (lockFree : Bool) (tbl : Option (List Process)) (mtime fuel epc : Nat) :
    Option (Nat × Option Nat × Option (List Process)) :=
  match schedule lockFree tbl mtime fuel with
  | none => none
  | some (nf, tbl2) => some (epc, (if nf ≠ 0 then some nf else none), tbl2)

/-! ### Scheduler lemmas -/

theorem mem_rotl {p : Process} {pl : List Process} : p ∈ rotl pl ↔ p ∈ pl := by
  cases pl with
  | nil => simp [rotl]
  | cons x xs => simp [rotl, or_comm]

theorem length_rotl (pl : List Process) : (rotl pl).length = pl.length := by
  cases pl <;> simp [rotl]

/-- If no process of the table qualifies, the scan loop spins forever:
whatever the fuel, it does not return. -/
theorem schedLoop_none_of_no_qual (mtime : Nat) :
    ∀ fuel pl, (∀ p ∈ pl, qualifies mtime p = false) →
      schedLoop mtime fuel pl = none := by
  intro fuel
  induction fuel with
  | zero => intro pl _; rfl
  | succ f ih =>
    intro pl hq
    have hq2 : ∀ p ∈ rotl pl, qualifies mtime p = false := by
      intro p hp
      exact hq p (mem_rotl.mp hp)
    cases h : rotl pl with
    | nil =>
      simp only [schedLoop, h]
      exact ih [] (by intro p hp; cases hp)
    | cons q rest =>
      have hqq : qualifies mtime q = false := hq2 q (by rw [h]; exact List.mem_cons_self q rest)
      simp only [schedLoop, h]
      cases hs : q.state with
      | Running =>
        exfalso
        simp [qualifies, hs] at hqq
      | Sleeping =>
        have hnle : ¬ q.sleepUntil ≤ mtime := by
          intro hle
          simp [qualifies, hs, hle] at hqq
        simp only [if_neg hnle]
        exact ih (q :: rest) (by rw [← h]; exact hq2)
      | Waiting => exact ih (q :: rest) (by rw [← h]; exact hq2)
      | Dead => exact ih (q :: rest) (by rw [← h]; exact hq2)

/-- The scan returns the first qualifying process in rotation order:
if, after the initial rotation, the table reads `l₁ ++ q :: l₂` with no
process of `l₁` qualifying and `q` qualifying, then with fuel beyond
`l₁.length` the loop stops at `q` and returns its frame address. -/
theorem schedLoop_finds_first (mtime : Nat) :
    ∀ l₁ fuel pl q l₂, rotl pl = l₁ ++ q :: l₂ →
      (∀ p ∈ l₁, qualifies mtime p = false) →
      qualifies mtime q = true → l₁.length < fuel →
      ∃ pl2, schedLoop mtime fuel pl = some (q.frameAddr, pl2) := by
  intro l₁
  induction l₁ with
  | nil =>
    intro fuel pl q l₂ hrot _ hq hfuel
    cases fuel with
    | zero => omega
    | succ f =>
      simp only [List.nil_append] at hrot
      simp only [schedLoop, hrot]
      cases hs : q.state with
      | Running => exact ⟨q :: l₂, rfl⟩
      | Sleeping =>
        have hle : q.sleepUntil ≤ mtime := by
          by_contra hn
          simp [qualifies, hs, hn] at hq
        simp only [if_pos hle]
        exact ⟨{ q with state := ProcessState.Running } :: l₂, rfl⟩
      | Waiting => simp [qualifies, hs] at hq
      | Dead => simp [qualifies, hs] at hq
  | cons a l₁' ih =>
    intro fuel pl q l₂ hrot hpre hq hfuel
    cases fuel with
    | zero => simp at hfuel
    | succ f =>
      have ha : qualifies mtime a = false := hpre a (List.mem_cons_self a l₁')
      have hrest : rotl (a :: (l₁' ++ q :: l₂)) = l₁' ++ q :: (l₂ ++ [a]) := by
        simp [rotl]
      have hpre' : ∀ p ∈ l₁', qualifies mtime p = false := by
        intro p hp
        exact hpre p (List.mem_cons_of_mem a hp)
      have hf : l₁'.length < f := by
        simp at hfuel
        omega
      simp only [List.cons_append] at hrot
      simp only [schedLoop, hrot]
      cases hs : a.state with
      | Running => simp [qualifies, hs] at ha
      | Sleeping =>
        have hnle : ¬ a.sleepUntil ≤ mtime := by
          intro hle
          simp [qualifies, hs, hle] at ha
        simp only [if_neg hnle]
        exact ih f (a :: (l₁' ++ q :: l₂)) q (l₂ ++ [a]) hrest hpre' hq hf
      | Waiting => exact ih f (a :: (l₁' ++ q :: l₂)) q (l₂ ++ [a]) hrest hpre' hq hf
      | Dead => exact ih f (a :: (l₁' ++ q :: l₂)) q (l₂ ++ [a]) hrest hpre' hq hf

/-- With a `Running` process at the front after rotation, one iteration
of the scan suffices and the table is left rotated by one. -/
theorem schedLoop_step_running (mtime fuel : Nat) (pl : List Process) (q : Process)
    (rest : List Process) (hrot : rotl pl = q :: rest)
    (hq : q.state = ProcessState.Running) :
    schedLoop mtime (fuel + 1) pl = some (q.frameAddr, q :: rest) := by
  simp only [schedLoop, hrot, hq]

/-- Iterated rotation: `n` rotations by one position. -/
def rotlN : Nat → List Process → List Process
  | 0, pl => pl
  | n + 1, pl => rotlN n (rotl pl)

/-- Runs `n` consecutive invocations of `schedule()` (each acquiring
the lock, with enough fuel to finish), threading the table through and
collecting the returned frame addresses in order. -/
def schedRun (mtime : Nat) : Nat → List Process → List Nat × List Process
  | 0, pl => ([], pl)
  | n + 1, pl =>
    match schedule true (some pl) mtime (pl.length + 1) with
    | some (fa, some pl2) =>
      let r := schedRun mtime n pl2
      (fa :: r.1, r.2)
    | _ => ([], pl)

theorem schedRun_spec (mtime : Nat) :
    ∀ n pl, (∀ p ∈ pl, p.state = ProcessState.Running) → pl ≠ [] →
      n ≤ pl.length →
      (schedRun mtime n pl).1 = ((rotl pl).take n).map Process.frameAddr ∧
      (schedRun mtime n pl).2 = rotlN n pl := by
  intro n
  induction n with
  | zero => intro pl _ _ _; exact ⟨rfl, rfl⟩
  | succ m ih =>
    intro pl hrun hne hlen
    cases hpl : pl with
    | nil => exact absurd hpl hne
    | cons x xs =>
      subst hpl
      have hrot : rotl (x :: xs) = xs ++ [x] := rfl
      cases hxs : xs ++ [x] with
      | nil => exact absurd hxs (by simp)
      | cons q rest =>
        have hqmem : q ∈ x :: xs := by
          rw [← mem_rotl]
          rw [hrot, hxs]
          exact List.mem_cons_self q rest
        have hq : q.state = ProcessState.Running := hrun q hqmem
        have hloop := schedLoop_step_running mtime (x :: xs).length (x :: xs) q rest
          (by rw [hrot, hxs]) hq
        have hrun2 : ∀ p ∈ q :: rest, p.state = ProcessState.Running := by
          intro p hp
          apply hrun
          rw [← mem_rotl, hrot, hxs]
          exact hp
        have hlen2 : (q :: rest).length = (x :: xs).length := by
          rw [← hxs, ← hrot]
          exact length_rotl (x :: xs)
        have hm : m ≤ (q :: rest).length := by
          rw [hlen2]
          omega
        have ihq := ih (q :: rest) hrun2 (by simp) hm
        have hsched : schedule true (some (x :: xs)) mtime ((x :: xs).length + 1)
            = some (q.frameAddr, some (q :: rest)) := by
          simp only [schedule, hloop, if_true]
        constructor
        · show (schedRun mtime (m + 1) (x :: xs)).1 = _
          simp only [schedRun, hsched]
          rw [ihq.1]
          rw [hrot, hxs]
          simp only [List.map_cons, List.take_succ_cons, List.map]
          congr 1
          have hrest : rotl (q :: rest) = rest ++ [q] := rfl
          rw [hrest]
          have hmr : m ≤ rest.length := by
            have : (q :: rest).length = rest.length + 1 := rfl
            omega
          rw [List.take_append_of_le_length hmr]
        · show (schedRun mtime (m + 1) (x :: xs)).2 = _
          simp only [schedRun, hsched]
          rw [ihq.2]
          show rotlN m (q :: rest) = rotlN (m + 1) (x :: xs)
          simp only [rotlN]
          rw [hrot, hxs]

/-! ### Claim theorems about the scheduler -/

/-- C1 counterexample.  The claim says that, having acquired the lock,
the scheduler scans forward at most one full table length and returns
the no-change sentinel when no entry qualifies — in particular that it
terminates when every process is `Waiting`.  On a table holding a
single `Waiting` process the scan, given fuel for five iterations
(five times the table length), has still not returned: the
`'procfindloop` of `sched.rs` has no iteration bound and never exits
when nothing qualifies. -/
theorem schedule_bounded_scan_cex :
    schedule true (some [⟨1, 0x80001000, ProcessState.Waiting, 0⟩]) 0 5 = none := by
  rfl

/-- C1 (amended): when `schedule` acquires the lock, it rotates the
table one position per scan step and returns the frame address of the
first entry in rotation order that is `Running`, or `Sleeping` with an
elapsed wake time (promoted to `Running` in place); when no entry
qualifies the scan never terminates — for every iteration bound it has
not returned — rather than returning a no-change sentinel. -/
theorem schedule_rotate_scan (mtime fuel : Nat) (pl : List Process) :
    ((∀ p ∈ pl, qualifies mtime p = false) →
        schedule true (some pl) mtime fuel = none) ∧
    (∀ l₁ q l₂, rotl pl = l₁ ++ q :: l₂ →
        (∀ p ∈ l₁, qualifies mtime p = false) →
        qualifies mtime q = true → l₁.length < fuel →
        ∃ pl2, schedule true (some pl) mtime fuel = some (q.frameAddr, some pl2)) := by
  constructor
  · intro hq
    simp only [schedule, if_true]
    rw [schedLoop_none_of_no_qual mtime fuel pl hq]
  · intro l₁ q l₂ hrot hpre hq hfuel
    obtain ⟨pl2, hpl2⟩ := schedLoop_finds_first mtime l₁ fuel pl q l₂ hrot hpre hq hfuel
    refine ⟨pl2, ?_⟩
    simp only [schedule, if_true, hpl2]

/-- Witness for `schedule_rotate_scan` at concrete inputs: a lone
`Waiting` process makes the scan spin forever, and a table whose
rotation starts with a `Running` process yields that process's frame. -/
theorem schedule_rotate_scan_witness :
    schedule true (some [⟨1, 7, ProcessState.Waiting, 0⟩]) 0 3 = none ∧
    ∃ pl2, schedule true (some [⟨1, 7, ProcessState.Waiting, 0⟩, ⟨2, 9, ProcessState.Running, 0⟩])
      0 3 = some (9, some pl2) := by
  constructor
  · exact (schedule_rotate_scan 0 3 [⟨1, 7, ProcessState.Waiting, 0⟩]).1 (by decide)
  · exact (schedule_rotate_scan 0 3
      [⟨1, 7, ProcessState.Waiting, 0⟩, ⟨2, 9, ProcessState.Running, 0⟩]).2
      [] ⟨2, 9, ProcessState.Running, 0⟩ [⟨1, 7, ProcessState.Waiting, 0⟩]
      rfl (by intro p hp; cases hp) (by decide) (by decide)

/-- C6: invoked while the process-table lock is already held, the
scheduler's `try_lock` fails and it returns the no-change sentinel `0`
at once, leaving the table exactly as it was; the timer-interrupt arm
of `m_trap` then performs no context switch (`new_frame != 0` fails)
and resumes the interrupted frame at the saved `epc`. -/
theorem schedule_lock_contention (tbl : Option (List Process)) (mtime fuel epc : Nat) :
    schedule false tbl mtime fuel = some (0, tbl) ∧
    timerTick false tbl mtime fuel epc = some (epc, none, tbl) := by
  constructor
  · rfl
  · rfl

/-- C9: with `k` processes in the table, all `Running`, `k` consecutive
invocations of the scheduler return the frame address of each process
exactly once — the collected frame addresses are a permutation of the
table's frame addresses. -/
theorem schedule_round_robin_fair (mtime : Nat) (pl : List Process)
    (hrun : ∀ p ∈ pl, p.state = ProcessState.Running) (hne : pl ≠ []) :
    ((schedRun mtime pl.length pl).1).Perm (pl.map Process.frameAddr) := by
  have hspec := (schedRun_spec mtime pl.length pl hrun hne le_rfl).1
  rw [hspec]
  have hlen : pl.length = (rotl pl).length := (length_rotl pl).symm
  rw [hlen, List.take_length]
  apply List.Perm.map
  cases pl with
  | nil => simp [rotl]
  | cons x xs => exact List.perm_append_singleton x xs

/-- Witness for `schedule_round_robin_fair`: three `Running` processes. -/
theorem schedule_round_robin_fair_witness :
    ((schedRun 0 3 [⟨1, 10, ProcessState.Running, 0⟩, ⟨2, 20, ProcessState.Running, 0⟩,
        ⟨3, 30, ProcessState.Running, 0⟩]).1).Perm [10, 20, 30] :=
  schedule_round_robin_fair 0
    [⟨1, 10, ProcessState.Running, 0⟩, ⟨2, 20, ProcessState.Running, 0⟩,
      ⟨3, 30, ProcessState.Running, 0⟩]
    (by decide) (by decide)

/-- C10: whenever a successful scan returns, the returned value is the
frame address of the process at the front of the table as left behind,
and that process is `Running` at that moment (a `Sleeping` process with
elapsed wake time has been promoted before returning; `Waiting` and
`Dead` entries are never returned). -/
theorem schedule_returns_running (pl : List Process) (mtime fuel fa : Nat)
    (tbl2 : Option (List Process))
    (h : schedule true (some pl) mtime fuel = some (fa, tbl2)) :
    ∃ p rest, tbl2 = some (p :: rest) ∧ p.frameAddr = fa ∧
      p.state = ProcessState.Running := by
  have hloop : ∀ f pl0, schedLoop mtime f pl0 = none ∨
      ∃ p rest, schedLoop mtime f pl0 = some (p.frameAddr, p :: rest) ∧
        p.state = ProcessState.Running := by
    intro f
    induction f with
    | zero => intro pl0; exact Or.inl rfl
    | succ g ih =>
      intro pl0
      cases hrot : rotl pl0 with
      | nil =>
        rcases ih [] with hnone | hsome
        · exact Or.inl (by simp only [schedLoop, hrot]; exact hnone)
        · obtain ⟨p, rest, heq, hst⟩ := hsome
          exact Or.inr ⟨p, rest, by simp only [schedLoop, hrot]; exact heq, hst⟩
      | cons q rest0 =>
        cases hs : q.state with
        | Running =>
          exact Or.inr ⟨q, rest0, by simp only [schedLoop, hrot, hs], hs⟩
        | Sleeping =>
          by_cases hle : q.sleepUntil ≤ mtime
          · refine Or.inr ⟨{ q with state := ProcessState.Running }, rest0, ?_, rfl⟩
            simp only [schedLoop, hrot, hs, if_pos hle]
          · rcases ih (q :: rest0) with hnone | hsome
            · exact Or.inl (by simp only [schedLoop, hrot, hs, if_neg hle]; exact hnone)
            · obtain ⟨p, rest, heq, hst⟩ := hsome
              exact Or.inr ⟨p, rest, by simp only [schedLoop, hrot, hs, if_neg hle]; exact heq, hst⟩
        | Waiting =>
          rcases ih (q :: rest0) with hnone | hsome
          · exact Or.inl (by simp only [schedLoop, hrot, hs]; exact hnone)
          · obtain ⟨p, rest, heq, hst⟩ := hsome
            exact Or.inr ⟨p, rest, by simp only [schedLoop, hrot, hs]; exact heq, hst⟩
        | Dead =>
          rcases ih (q :: rest0) with hnone | hsome
          · exact Or.inl (by simp only [schedLoop, hrot, hs]; exact hnone)
          · obtain ⟨p, rest, heq, hst⟩ := hsome
            exact Or.inr ⟨p, rest, by simp only [schedLoop, hrot, hs]; exact heq, hst⟩
  rcases hloop fuel pl with hnone | hsome
  · simp only [schedule, if_true, hnone] at h
    exact absurd h (by simp)
  · obtain ⟨p, rest, heq, hst⟩ := hsome
    simp only [schedule, if_true, heq, Option.some.injEq, Prod.mk.injEq] at h
    exact ⟨p, rest, h.2.symm, h.1, hst⟩

/-- Witness for `schedule_returns_running`: a one-process table whose
process is `Running`. -/
theorem schedule_returns_running_witness :
    ∃ p rest, (some [⟨1, 0x8000, ProcessState.Running, 0⟩] :
        Option (List Process)) = some (p :: rest) ∧
      p.frameAddr = 0x8000 ∧ p.state = ProcessState.Running :=
  schedule_returns_running [⟨1, 0x8000, ProcessState.Running, 0⟩] 0 3 0x8000
    (some [⟨1, 0x8000, ProcessState.Running, 0⟩]) (by decide)

/-! ## Pid assignment (`src/risc_v/src/process.rs`, `src/risc_v/src/elf.rs`)

The static `NEXT_PID: u16` starts at `1`.  The spawn routines
`add_kernel_process`, `add_kernel_process_args` and
`Process::new_default` read `my_pid = NEXT_PID` and then do
`NEXT_PID += 1`.  The ELF loader `File::load_proc` instead does
`let p = NEXT_PID + 1; NEXT_PID += 1; p`: it assigns `NEXT_PID + 1` as
the new pid but leaves the counter equal to that same value.  `u16`
arithmetic is modelled as `Nat` modulo `2^16`. -/

inductive SpawnOp where
  | addKernelProcess
  | addKernelProcessArgs
  | newDefault
  | loadProc
deriving DecidableEq

/-- The pid a spawn routine assigns and the value it leaves in
`NEXT_PID`, given the current value of `NEXT_PID`. -/
def assignPid : SpawnOp → Nat → Nat × Nat
  | SpawnOp.addKernelProcess, n => (n, (n + 1) % 65536)
  | SpawnOp.addKernelProcessArgs, n => (n, (n + 1) % 65536)
  | SpawnOp.newDefault, n => (n, (n + 1) % 65536)
  | SpawnOp.loadProc, n => ((n + 1) % 65536, (n + 1) % 65536)

/-- Runs a sequence of spawn operations from a given `NEXT_PID` value,
collecting the assigned pids in order together with the final counter. -/
def runSpawns : List SpawnOp → Nat → List Nat × Nat
  | [], n => ([], n)
  | op :: rest, n =>
    let r := assignPid op n
    let rs := runSpawns rest r.2
    (r.1 :: rs.1, rs.2)

/-- C3 evaluated at the failing input.  Starting from the initial
`NEXT_PID = 1`, an ELF load (`File::load_proc`) assigns pid `2` and
leaves `NEXT_PID = 2`; the next `add_kernel_process` then assigns pid
`2` again.  The two pids collide, so they are neither distinct nor
strictly increasing, contradicting the claim (and the source's own
comment in `elf.rs`, which asserts that pids are never reused). -/
theorem pid_reuse_eval :
    runSpawns [SpawnOp.loadProc, SpawnOp.addKernelProcess] 1 = ([2, 2], 3) ∧
    ¬ ([2, 2] : List Nat).Nodup := by
  constructor
  · rfl
  · decide

/-! ## Byte allocator (`src/risc_v/ch3/src/kmem.rs`)

A heap is the implicit address-ordered list of `AllocList` blocks; a
block carries its taken flag and its stored size (the size field of
`flags_size`, which includes the 8-byte header, `size_of::<AllocList>()`).
The head pointer walk (`head < tail`, `head = head.add(get_size())`)
is the structural walk down this list. -/

structure Block where
  taken : Bool
  size : Nat
deriving DecidableEq

/-- The size of the `AllocList` header: `size_of::<AllocList>()`,
one 64-bit word. -/
def headerSize : Nat := 8

/-- Modelled from the spec: `align_val` lives in `page.rs`, which is
not among the sources; per the spec the requested size is 8-byte
aligned (`align_val(sz, 3)` rounds `sz` up to the next multiple of 8). -/
def align_val (sz : Nat) : Nat := ((sz + 7) / 8) * 8

/-- The scan loop of `kmalloc`: `off` is the byte offset of the current
block from `KMEM_HEAD`.  The first free block whose stored size covers
`size` is taken; if the remainder strictly exceeds one header's size
the block is split into a taken block of `size` bytes and a free block
of the remainder, otherwise the whole block is taken.  The returned
address is the block's data region, one header past the block start. -/
def kmallocGo (size : Nat) : Nat → List Block → Option (Nat × List Block)
  | _, [] => none
  | off, b :: rest =>
    if b.taken = false ∧ size ≤ b.size then
      if headerSize < b.size - size then
        some (off + headerSize, Block.mk true size :: Block.mk false (b.size - size) :: rest)
      else
        some (off + headerSize, Block.mk true b.size :: rest)
    else
      match kmallocGo size (off + b.size) rest with
      | none => none
      | some (a, l) => some (a, b :: l)

/-- The function `kmalloc` of `kmem.rs`: the requested byte count is
8-byte aligned and one header size is added, then the block list is
scanned from `KMEM_HEAD`; `none` models the null return when no block
fits. -/
def kmalloc (sz : Nat) (heap : List Block) : Option (Nat × List Block) :=
  kmallocGo (align_val sz + headerSize) 0 heap

/-- Total of the stored sizes of a run of blocks; the byte offset of
whatever block follows them. -/
def sumSizes (l : List Block) : Nat := (l.map Block.size).sum

theorem sumSizes_nil : sumSizes [] = 0 := rfl

theorem sumSizes_cons (b : Block) (l : List Block) :
    sumSizes (b :: l) = b.size + sumSizes l := rfl

theorem kmallocGo_spec (size : Nat) :
    ∀ heap off,
      (kmallocGo size off heap = none → ∀ b ∈ heap, b.taken = true ∨ b.size < size) ∧
      (∀ addr heap2, kmallocGo size off heap = some (addr, heap2) →
        ∃ l₁ b l₂, heap = l₁ ++ b :: l₂ ∧
          (∀ b2 ∈ l₁, b2.taken = true ∨ b2.size < size) ∧
          b.taken = false ∧ size ≤ b.size ∧
          addr = off + sumSizes l₁ + headerSize ∧
          heap2 = l₁ ++ (if headerSize < b.size - size
            then Block.mk true size :: Block.mk false (b.size - size) :: l₂
            else Block.mk true b.size :: l₂)) := by
  intro heap
  induction heap with
  | nil =>
    intro off
    constructor
    · intro _ b hb
      cases hb
    · intro addr heap2 h
      simp [kmallocGo] at h
  | cons b rest ih =>
    intro off
    by_cases hfit : b.taken = false ∧ size ≤ b.size
    · constructor
      · intro h
        by_cases hsplit : headerSize < b.size - size
        · simp [kmallocGo, hfit, hsplit] at h
        · simp [kmallocGo, hfit, hsplit] at h
      · intro addr heap2 h
        by_cases hsplit : headerSize < b.size - size
        · simp only [kmallocGo, if_pos hfit, if_pos hsplit, Option.some.injEq,
            Prod.mk.injEq] at h
          refine ⟨[], b, rest, by simp, ?_, hfit.1, hfit.2, ?_, ?_⟩
          · intro b2 hb2
            cases hb2
          · rw [← h.1]
            simp [sumSizes]
          · rw [← h.2, if_pos hsplit]
            simp
        · simp only [kmallocGo, if_pos hfit, if_neg hsplit, Option.some.injEq,
            Prod.mk.injEq] at h
          refine ⟨[], b, rest, by simp, ?_, hfit.1, hfit.2, ?_, ?_⟩
          · intro b2 hb2
            cases hb2
          · rw [← h.1]
            simp [sumSizes]
          · rw [← h.2, if_neg hsplit]
            simp
    · have hmiss : b.taken = true ∨ b.size < size := by
        rcases Decidable.not_and_iff_or_not.mp hfit with h1 | h2
        · left
          cases hb : b.taken with
          | false => exact absurd hb h1
          | true => rfl
        · right
          omega
      constructor
      · intro h
        intro b2 hb2
        rcases List.mem_cons.mp hb2 with rfl | hmem
        · exact hmiss
        · refine (ih (off + b.size)).1 ?_ b2 hmem
          by_contra hne
          rcases Option.ne_none_iff_exists.mp hne with ⟨⟨a, l⟩, hal⟩
          simp [kmallocGo, hfit, ← hal] at h
      · intro addr heap2 h
        simp only [kmallocGo, if_neg hfit] at h
        cases hrec : kmallocGo size (off + b.size) rest with
        | none => rw [hrec] at h; cases h
        | some al =>
          obtain ⟨a, l⟩ := al
          rw [hrec] at h
          simp only [Option.some.injEq, Prod.mk.injEq] at h
          obtain ⟨l₁, c, l₂, hdecomp, hpre, hc1, hc2, haddr, hheap⟩ :=
            (ih (off + b.size)).2 a l hrec
          refine ⟨b :: l₁, c, l₂, by rw [hdecomp]; simp, ?_, hc1, hc2, ?_, ?_⟩
          · intro b2 hb2
            rcases List.mem_cons.mp hb2 with rfl | hmem
            · exact hmiss
            · exact hpre b2 hmem
          · rw [← h.1, haddr, sumSizes_cons]
            omega
          · rw [← h.2, hheap]
            simp

/-- C7: for every requested size `sz`, `kmalloc` scans the block list
linearly from the head and takes the first free block whose stored size
covers the 8-byte-aligned request plus the header size; when the
remainder after carving out the request strictly exceeds one header's
size the block is split into a taken block of the request's size and a
free block of the remainder, otherwise the whole block is handed out;
when no block fits (every block is taken or too small) `kmalloc`
returns the null pointer rather than aborting. -/
theorem kmalloc_first_fit (sz : Nat) (heap : List Block) :
    (kmalloc sz heap = none →
      ∀ b ∈ heap, b.taken = true ∨ b.size < align_val sz + headerSize) ∧
    (∀ addr heap2, kmalloc sz heap = some (addr, heap2) →
      ∃ l₁ b l₂, heap = l₁ ++ b :: l₂ ∧
        (∀ b2 ∈ l₁, b2.taken = true ∨ b2.size < align_val sz + headerSize) ∧
        b.taken = false ∧ align_val sz + headerSize ≤ b.size ∧
        addr = sumSizes l₁ + headerSize ∧
        heap2 = l₁ ++ (if headerSize < b.size - (align_val sz + headerSize)
          then Block.mk true (align_val sz + headerSize)
            :: Block.mk false (b.size - (align_val sz + headerSize)) :: l₂
          else Block.mk true b.size :: l₂)) := by
  have h := kmallocGo_spec (align_val sz + headerSize) heap 0
  constructor
  · exact h.1
  · intro addr heap2 hsome
    obtain ⟨l₁, b, l₂, h1, h2, h3, h4, h5, h6⟩ := h.2 addr heap2 hsome
    exact ⟨l₁, b, l₂, h1, h2, h3, h4, by omega, h6⟩

/-- Witness for `kmalloc_first_fit`: a pool with a 16-byte taken block
followed by a 64-byte free block; `kmalloc(5)` (16 bytes with alignment
and header) skips the taken block, splits the free one, and returns the
data address 24; and `kmalloc(100)` on a pool with one free 8-byte
block finds nothing and returns null. -/
theorem kmalloc_first_fit_witness :
    (∃ l₁ b l₂, ([Block.mk true 16, Block.mk false 64] : List Block) = l₁ ++ b :: l₂ ∧
      (∀ b2 ∈ l₁, b2.taken = true ∨ b2.size < align_val 5 + headerSize) ∧
      b.taken = false ∧ align_val 5 + headerSize ≤ b.size ∧
      (24 : Nat) = sumSizes l₁ + headerSize ∧
      ([Block.mk true 16, Block.mk true 16, Block.mk false 48] : List Block) =
        l₁ ++ (if headerSize < b.size - (align_val 5 + headerSize)
          then Block.mk true (align_val 5 + headerSize)
            :: Block.mk false (b.size - (align_val 5 + headerSize)) :: l₂
          else Block.mk true b.size :: l₂)) ∧
    (∀ b ∈ ([Block.mk false 8] : List Block),
      b.taken = true ∨ b.size < align_val 100 + headerSize) := by
  constructor
  · exact (kmalloc_first_fit 5 [Block.mk true 16, Block.mk false 64]).2 24
      [Block.mk true 16, Block.mk true 16, Block.mk false 48] rfl
  · exact (kmalloc_first_fit 100 [Block.mk false 8]).1 rfl

/-! ### The coalescing pass of `kfree` -/

/-- Outcome of running a piece of kernel code that could in principle
panic: either a normal return with a value, or a kernel panic. -/
inductive KRes (α : Type) where
  | ok (a : α)
  | panicked
deriving DecidableEq

/-- The scan of `coalesce` in `kmem.rs`: at each block, if its stored
size is zero the pass breaks out (leaving the rest of the heap as it
is); if it is the last block (`next >= tail`) the pass breaks; if it
and its immediate successor are both free they are merged and the scan
moves past the merged block (one forward pass, no transitive merge);
otherwise the scan moves one block forward. -/
def coalesceGo : List Block → List Block
  | [] => []
  | [b] => [b]
  | b1 :: b2 :: rest =>
    if b1.size = 0 then b1 :: b2 :: rest
    else if b1.taken = false ∧ b2.taken = false then
      Block.mk false (b1.size + b2.size) :: coalesceGo rest
    else
      b1 :: coalesceGo (b2 :: rest)

/-- The function `coalesce` of `kmem.rs`, with the panic outcome made
explicit: the source contains no panic in this pass — a zero-size block
makes it `break`, not abort. -/
def coalesce (heap : List Block) : KRes (List Block) :=
  KRes.ok (coalesceGo heap)

/-- C8 counterexample.  A heap whose first block has stored size zero:
the coalescing pass returns normally with the heap untouched — the
source `break`s out of the scan (`kmem.rs` lines 176-183) instead of
panicking, so the corruption is not kernel-fatal. -/
theorem coalesce_zero_size_cex :
    coalesce [Block.mk false 0, Block.mk true 24]
      = KRes.ok [Block.mk false 0, Block.mk true 24] := by
  rfl

/-- C8 (amended): a zero-size block encountered by the coalescing pass
is not kernel-fatal; the pass stops at it (breaking out of the scan and
leaving the remainder of the heap unmerged) and returns normally — the
kernel keeps running.  In particular the pass never panics on any
heap. -/
theorem coalesce_zero_size_breaks (heap : List Block) :
    (∃ h2, coalesce heap = KRes.ok h2) ∧
    (∀ b rest, heap = b :: rest → b.size = 0 → coalesce heap = KRes.ok heap) := by
  constructor
  · exact ⟨coalesceGo heap, rfl⟩
  · intro b rest hheap hzero
    subst hheap
    cases rest with
    | nil => rfl
    | cons b2 rest2 =>
      simp only [coalesce, coalesceGo, if_pos hzero]

/-- Witness for `coalesce_zero_size_breaks`: a concrete corrupt heap. -/
theorem coalesce_zero_size_breaks_witness :
    coalesce [Block.mk true 0, Block.mk false 16]
      = KRes.ok [Block.mk true 0, Block.mk false 16] :=
  (coalesce_zero_size_breaks [Block.mk true 0, Block.mk false 16]).2
    (Block.mk true 0) [Block.mk false 16] rfl rfl

/-! ## Process teardown (`impl Drop for Process`, `src/risc_v/src/process.rs`)

A `Process` owns: the stack allocation, the page-table root, the branch
pages the root reaches (freed by `unmap(&mut *self.root)`), the trap
frame, and — when non-null — the program image pages.  `drop` runs
`dealloc(self.stack)`, `unmap(..)`, `dealloc(self.root)`,
`dealloc(self.frame)`, and `dealloc(self.program)` if the program
pointer is non-null, in that textual order.  The embedding records the
sequence of addresses passed to `dealloc`; `program = 0` encodes the
null pointer. -/

structure ProcRes where
  stack : Nat
  root : Nat
  branches : List Nat
  frame : Nat
  program : Nat
deriving DecidableEq

/-- The sequence of deallocations performed by `Drop for Process`,
in source order: the stack, the branch-level table pages visited by
`unmap`, the root table page, the trap frame, and the program image
when its pointer is non-null. -/
def dropEvents (p : ProcRes) : List Nat :=
  p.stack :: (p.branches ++ [p.root, p.frame])
    ++ (if p.program = 0 then [] else [p.program])

/-- C5: teardown frees the stack first, then every page of the address
space (the branch pages visited by `unmap`, then the root), then the
frame, then the dynamically owned program pages when there are any —
in exactly that order (order is stated as sublist facts: `List.Sublist [x, y] l`
says `x` is freed strictly before `y`) — and, provided the owned
resources are distinct addresses, each of them is freed exactly once. -/
theorem drop_frees_in_order (p : ProcRes) (hnd : (dropEvents p).Nodup) :
    ((dropEvents p).count p.stack = 1 ∧
      (∀ b ∈ p.branches, (dropEvents p).count b = 1) ∧
      (dropEvents p).count p.root = 1 ∧
      (dropEvents p).count p.frame = 1 ∧
      (p.program ≠ 0 → (dropEvents p).count p.program = 1)) ∧
    ((∀ b ∈ p.branches, List.Sublist [p.stack, b, p.frame] (dropEvents p)) ∧
      List.Sublist [p.stack, p.root, p.frame] (dropEvents p) ∧
      (p.program ≠ 0 → List.Sublist [p.root, p.frame, p.program] (dropEvents p))) := by
  have hev : dropEvents p =
      p.stack :: ((p.branches ++ [p.root, p.frame])
        ++ (if p.program = 0 then [] else [p.program])) := by
    simp [dropEvents]
  constructor
  · have hstack : p.stack ∈ dropEvents p := by
      simp [dropEvents]
    have hroot : p.root ∈ dropEvents p := by
      simp [dropEvents]
    have hframe : p.frame ∈ dropEvents p := by
      simp [dropEvents]
    refine ⟨List.count_eq_one_of_mem hnd hstack, ?_, List.count_eq_one_of_mem hnd hroot,
      List.count_eq_one_of_mem hnd hframe, ?_⟩
    · intro b hb
      have : b ∈ dropEvents p := by
        simp [dropEvents, hb]
      exact List.count_eq_one_of_mem hnd this
    · intro hp
      have : p.program ∈ dropEvents p := by
        simp [dropEvents, hp]
      exact List.count_eq_one_of_mem hnd this
  · refine ⟨?_, ?_, ?_⟩
    · intro b hb
      obtain ⟨s, t, hst⟩ := List.append_of_mem hb
      rw [hev, hst]
      apply List.Sublist.cons₂
      have h1 : List.Sublist [b, p.frame] (b :: (t ++ [p.root, p.frame]
          ++ (if p.program = 0 then [] else [p.program]))) := by
        apply List.Sublist.cons₂
        apply List.singleton_sublist.mpr
        simp
      have h2 : (s ++ b :: t) ++ [p.root, p.frame]
          ++ (if p.program = 0 then [] else [p.program])
          = s ++ (b :: (t ++ [p.root, p.frame]
            ++ (if p.program = 0 then [] else [p.program]))) := by
        simp
      rw [h2]
      exact h1.trans (List.sublist_append_right s _)
    · rw [hev]
      apply List.Sublist.cons₂
      have h1 : List.Sublist [p.root, p.frame] ([p.root, p.frame]
          ++ (if p.program = 0 then [] else [p.program])) :=
        List.sublist_append_left _ _
      have h2 : p.branches ++ [p.root, p.frame]
          ++ (if p.program = 0 then [] else [p.program])
          = p.branches ++ ([p.root, p.frame]
            ++ (if p.program = 0 then [] else [p.program])) := by
        simp
      rw [h2]
      exact h1.trans (List.sublist_append_right p.branches _)
    · intro hp
      rw [hev, if_neg hp]
      apply List.Sublist.cons
      have h1 : List.Sublist [p.root, p.frame, p.program] ([p.root, p.frame] ++ [p.program]) := by
        simp
      have h2 : p.branches ++ [p.root, p.frame] ++ [p.program]
          = p.branches ++ ([p.root, p.frame] ++ [p.program]) := by
        simp
      rw [h2]
      exact h1.trans (List.sublist_append_right p.branches _)

/-- Witness for `drop_frees_in_order`: a process owning distinct
concrete addresses, two branch pages, and a non-null program image. -/
theorem drop_frees_in_order_witness :
    ((dropEvents ⟨100, 200, [300, 400], 500, 600⟩).count 100 = 1 ∧
      (∀ b ∈ [300, 400], (dropEvents ⟨100, 200, [300, 400], 500, 600⟩).count b = 1) ∧
      (dropEvents ⟨100, 200, [300, 400], 500, 600⟩).count 200 = 1 ∧
      (dropEvents ⟨100, 200, [300, 400], 500, 600⟩).count 500 = 1 ∧
      ((600 : Nat) ≠ 0 → (dropEvents ⟨100, 200, [300, 400], 500, 600⟩).count 600 = 1)) ∧
    ((∀ b ∈ [300, 400], List.Sublist [100, b, 500] (dropEvents ⟨100, 200, [300, 400], 500, 600⟩)) ∧
      List.Sublist [100, 200, 500] (dropEvents ⟨100, 200, [300, 400], 500, 600⟩) ∧
      ((600 : Nat) ≠ 0 →
        List.Sublist [200, 500, 600] (dropEvents ⟨100, 200, [300, 400], 500, 600⟩))) :=
  drop_frees_in_order ⟨100, 200, [300, 400], 500, 600⟩ (by decide)

/-! ## ELF loading and the exec system call
(`src/risc_v/src/elf.rs`, `src/risc_v/src/syscall.rs`)

`File::load` validates the header: magic `0x464c457f`, machine `0xf3`
(RISC-V), object type `2` (executable), in that order, and then keeps
each program header of type LOAD with a nonzero `memsz`.
`File::load_proc` propagates any load error before allocating anything.

The exec system call (number 11 in `do_syscall`) resolves the path; on
success it spawns a kernel helper process running `exec_func` and
immediately deletes the calling process — before the ELF image has been
validated.  `exec_func` later reads the file, calls `load_proc`, and on
error merely prints a message (inserting nothing); the helper process
then exits through `ra_delete_proc`.  The process table is modelled as
the list of pids in table order. -/

structure Header where
  magic : Nat
  machine : Nat
  obj_type : Nat
  entry_addr : Nat
deriving DecidableEq

structure ProgramHeader where
  seg_type : Nat
  memsz : Nat
deriving DecidableEq

inductive LoadErrors where
  | Magic
  | Machine
  | TypeExec
  | FileRead
deriving DecidableEq

def MAGIC : Nat := 0x464c457f

def MACHINE_RISCV : Nat := 0xf3

def TYPE_EXEC : Nat := 2

def PH_SEG_TYPE_LOAD : Nat := 1

structure ElfFile where
  header : Header
  programs : List ProgramHeader
deriving DecidableEq

/-- The function `File::load` of `elf.rs`: the three header checks in
source order, then the LOAD/nonzero-memsz filter over the program
headers. -/
def File_load (h : Header) (phs : List ProgramHeader) : Except LoadErrors ElfFile :=
  if h.magic ≠ MAGIC then Except.error LoadErrors.Magic
  else if h.machine ≠ MACHINE_RISCV then Except.error LoadErrors.Machine
  else if h.obj_type ≠ TYPE_EXEC then Except.error LoadErrors.TypeExec
  else Except.ok ⟨h, phs.filter (fun p => decide (p.seg_type = PH_SEG_TYPE_LOAD ∧ p.memsz ≠ 0))⟩

/-- The function `File::load_proc` of `elf.rs`, projected onto what the
claim observes: a load error is propagated before any allocation or
`NEXT_PID` update; on success a `Process` is built and the assigned pid
is `NEXT_PID + 1` (with `NEXT_PID` left at that same value, cf. the pid
model above). -/
def File_load_proc (h : Header) (phs : List ProgramHeader) (nextPid : Nat) :
    Except LoadErrors (Nat × Nat) :=
  match File_load h phs with
  | Except.error e => Except.error e
  | Except.ok _ => Except.ok ((nextPid + 1) % 65536, (nextPid + 1) % 65536)

/-- The function `delete_process` of `process.rs`: remove the first
table entry with the given pid, if any. -/
def delete_process (pid : Nat) : List Nat → List Nat
  | [] => []
  | p :: rest => if p = pid then rest else p :: delete_process pid rest

/-- The exec path: `do_syscall` case 11 followed by the asynchronous
`exec_func` body run to completion.  When the path does not resolve,
the caller's `A0` is set to `-1` and the table is untouched.  When it
resolves, a helper process is pushed and the caller is deleted at once;
`exec_func` then loads the ELF — on error nothing is inserted, on
success the new process is pushed — and the helper exits through
`ra_delete_proc`.  The result carries the final table and the load
error, if any. -/
def execSyscall (openOk : Bool) (h : Header) (phs : List ProgramHeader)
    (callerPid helperPid nextPid : Nat) (tbl : List Nat) :
    List Nat × Option LoadErrors :=
  if openOk then
    let t2 := delete_process callerPid (tbl ++ [helperPid])
    match File_load h phs with
    | Except.error e => (delete_process helperPid t2, some e)
    | Except.ok _ => (delete_process helperPid t2 ++ [(nextPid + 1) % 65536], none)
  else
    (tbl, none)

/-- C4 evaluated at the failing input.  The three header checks do
reject a bad magic, a wrong machine, and a non-executable type with the
matching `LoadErrors`, and on a rejected image no process is created or
inserted.  But the process that issued the exec call is NOT left
intact: with a table `[1, 5]` (init and the caller, pid 5) and a
resolvable path whose content has a corrupted magic, the exec path
deletes the caller before validation runs, leaving the table `[1]` —
the caller is gone even though the load failed with
`LoadErrors::Magic`, exactly as the source comment in `syscall.rs`
(case 11) concedes. -/
theorem exec_deletes_caller_on_bad_elf :
    File_load ⟨0, 0xf3, 2, 0x20000000⟩ [] = Except.error LoadErrors.Magic ∧
    File_load ⟨0x464c457f, 0, 2, 0x20000000⟩ [] = Except.error LoadErrors.Machine ∧
    File_load ⟨0x464c457f, 0xf3, 3, 0x20000000⟩ [] = Except.error LoadErrors.TypeExec ∧
    File_load_proc ⟨0, 0xf3, 2, 0x20000000⟩ [] 6 = Except.error LoadErrors.Magic ∧
    execSyscall true ⟨0, 0xf3, 2, 0x20000000⟩ [] 5 6 6 [1, 5]
      = ([1], some LoadErrors.Magic) ∧
    (5 : Nat) ∉ ([1] : List Nat) := by
  refine ⟨rfl, rfl, rfl, rfl, rfl, ?_⟩
  decide

/-! ## Page tables: `map` and `virt_to_phys`

Modelled from the spec: `page.rs` is not among the sources (only its
callers and its `use page::{map, virt_to_phys, ...}` declarations are),
so the three-level Sv39 walk is modelled from the specification's own
words (§3 and §4.2): a page-table entry stores a physical page number
plus permission bits; the virtual address is split into three 9-bit
slices above a 12-bit page offset; `map` walks the three levels,
creating empty next-level tables for invalid branch slots, and installs
a leaf at the last level; `virt_to_phys` performs the same walk
read-only and fails (not-found) the moment it meets an invalid (absent)
entry.  Each level is modelled as an association list from the 9-bit
index to its content. -/

structure Leaf where
  ppn : Nat
  bits : Nat
deriving DecidableEq

/-- The lowest 9-bit slice of the virtual page number. -/
def vpn0 (v : Nat) : Nat := (v / 4096) % 512

/-- The middle 9-bit slice of the virtual page number. -/
def vpn1 (v : Nat) : Nat := (v / (4096 * 512)) % 512

/-- The highest 9-bit slice of the virtual page number. -/
def vpn2 (v : Nat) : Nat := (v / (4096 * 512 * 512)) % 512

/-- Lookup in one table level: the entry at index `k`, or `none` when
the slot is invalid. -/
def alFind {β : Type} (k : Nat) : List (Nat × β) → Option β
  | [] => none
  | (k2, v) :: rest => if k2 = k then some v else alFind k rest

/-- Update of one table level at index `k`, where `f` receives the old
slot content (`none` for an invalid slot, in which case `map` supplies
a freshly zeroed — empty — next level). -/
def alSet {β : Type} (k : Nat) (f : Option β → β) : List (Nat × β) → List (Nat × β)
  | [] => [(k, f none)]
  | (k2, v) :: rest =>
    if k2 = k then (k, f (some v)) :: rest else (k2, v) :: alSet k f rest

/-- A level-0 page table: indices to leaves. -/
def Tbl0 : Type := List (Nat × Leaf)

/-- A level-1 page table: indices to level-0 tables. -/
def Tbl1 : Type := List (Nat × Tbl0)

/-- The root (level-2) page table. -/
def Table : Type := List (Nat × Tbl1)

/-- Modelled from the spec: `map(table, vaddr, paddr, bits)` walks the
three 9-bit slices of `vaddr`, materialising empty next-level tables
for invalid branch slots, and installs at the last level a leaf holding
the physical page number of `paddr` and the permission bits. -/
def map (t : Table) (vaddr paddr bits : Nat) : Table :=
  alSet (vpn2 vaddr) (fun o1 =>
    alSet (vpn1 vaddr) (fun o0 =>
      alSet (vpn0 vaddr) (fun _ => Leaf.mk (paddr / 4096) bits) (o0.getD []))
      (o1.getD [])) t

/-- Modelled from the spec: `virt_to_phys(table, vaddr)` performs the
same walk read-only, failing (not-found) the moment it meets an invalid
entry; on success it recombines the leaf's physical page number with
the 12-bit page offset of `vaddr`. -/
def virt_to_phys (t : Table) (vaddr : Nat) : Option Nat :=
  (alFind (vpn2 vaddr) t).bind (fun t1 =>
    (alFind (vpn1 vaddr) t1).bind (fun t0 =>
      (alFind (vpn0 vaddr) t0).map (fun leaf => leaf.ppn * 4096 + vaddr % 4096)))

/-- Application of a sequence of `map` calls `(vaddr, paddr, bits)` in
order. -/
def applyMaps (ops : List (Nat × Nat × Nat)) (t : Table) : Table :=
  match ops with
  | [] => t
  | (v, p, b) :: rest => applyMaps rest (map t v p b)

/-- Two virtual addresses translate through the same slots exactly when
all three 9-bit slices agree. -/
def sameVpn (w v : Nat) : Prop :=
  vpn2 w = vpn2 v ∧ vpn1 w = vpn1 v ∧ vpn0 w = vpn0 v

instance (w v : Nat) : Decidable (sameVpn w v) := by
  unfold sameVpn
  infer_instance

theorem alFind_alSet_self {β : Type} (k : Nat) (f : Option β → β) (l : List (Nat × β)) :
    alFind k (alSet k f l) = some (f (alFind k l)) := by
  induction l with
  | nil => simp [alFind, alSet]
  | cons kv rest ih =>
    obtain ⟨k2, v⟩ := kv
    by_cases h : k2 = k
    · subst h
      simp [alFind, alSet]
    · simp [alFind, alSet, h, ih]

theorem alFind_alSet_ne {β : Type} {k k2 : Nat} (hne : k2 ≠ k) (f : Option β → β)
    (l : List (Nat × β)) : alFind k2 (alSet k f l) = alFind k2 l := by
  have hkk : ¬ (k = k2) := fun hh => hne hh.symm
  induction l with
  | nil =>
    simp only [alSet, alFind]
    rw [if_neg hkk]
  | cons kv rest ih =>
    obtain ⟨k3, v⟩ := kv
    by_cases h : k3 = k
    · subst h
      simp only [alSet, if_pos rfl, alFind]
      rw [if_neg hkk, if_neg hkk]
    · simp only [alSet, if_neg h, alFind]
      by_cases h2 : k3 = k2
      · rw [if_pos h2, if_pos h2]
      · rw [if_neg h2, if_neg h2, ih]

/-- Round trip after a single `map`, over any prior table: the walk
finds the freshly installed leaf. -/
theorem virt_to_phys_map_self (t : Table) (v p bits : Nat) :
    virt_to_phys (map t v p bits) v = some (p / 4096 * 4096 + v % 4096) := by
  simp [virt_to_phys, map, alFind_alSet_self]

/-- A `map` of `v` leaves the translation of any `w` whose vpn slices
differ somewhere untouched. -/
theorem virt_to_phys_map_other (t : Table) (v p bits w : Nat)
    (hne : ¬ sameVpn w v) :
    virt_to_phys (map t v p bits) w = virt_to_phys t w := by
  by_cases h2 : vpn2 w = vpn2 v
  · by_cases h1 : vpn1 w = vpn1 v
    · have h0 : vpn0 w ≠ vpn0 v := by
        intro h0
        exact hne ⟨h2, h1, h0⟩
      have h0sym : ¬ (vpn0 v = vpn0 w) := fun hh => h0 hh.symm
      simp only [virt_to_phys, map]
      rw [h2, alFind_alSet_self]
      cases ht1 : alFind (vpn2 v) t with
      | none =>
        simp only [Option.getD_none, Option.some_bind, Option.none_bind]
        rw [h1, alFind_alSet_self]
        simp only [Option.some_bind, alFind, Option.none_bind]
        rw [if_neg h0sym]
        rfl
      | some t1 =>
        simp only [Option.getD_some, Option.some_bind]
        rw [h1, alFind_alSet_self]
        simp only [Option.some_bind]
        rw [alFind_alSet_ne h0]
        cases ht0 : alFind (vpn1 v) t1 with
        | none => simp [alFind]
        | some t0 => simp
    · simp only [virt_to_phys, map]
      rw [h2, alFind_alSet_self]
      simp only [Option.some_bind]
      rw [alFind_alSet_ne h1]
      cases ht1 : alFind (vpn2 v) t with
      | none => simp [alFind]
      | some t1 => simp
  · simp only [virt_to_phys, map]
    rw [alFind_alSet_ne h2]

/-- Translations of addresses whose vpn triple never appears in a
sequence of `map` calls are preserved by the whole sequence. -/
theorem virt_to_phys_applyMaps_preserve (ops : List (Nat × Nat × Nat)) :
    ∀ (t : Table) (w : Nat) (r : Option Nat), virt_to_phys t w = r →
      (∀ o ∈ ops, ¬ sameVpn w o.1) →
      virt_to_phys (applyMaps ops t) w = r := by
  induction ops with
  | nil => intro t w r h _; exact h
  | cons o rest ih =>
    intro t w r h hall
    obtain ⟨v, p, b⟩ := o
    have hne : ¬ sameVpn w v := hall (v, p, b) (List.mem_cons_self _ _)
    refine ih (map t v p b) w r ?_ ?_
    · rw [virt_to_phys_map_other t v p b w hne]
      exact h
    · intro o ho
      exact hall o (List.mem_cons_of_mem _ ho)

theorem applyMaps_append (l₁ l₂ : List (Nat × Nat × Nat)) :
    ∀ t, applyMaps (l₁ ++ l₂) t = applyMaps l₂ (applyMaps l₁ t) := by
  induction l₁ with
  | nil => intro t; rfl
  | cons o rest ih =>
    intro t
    obtain ⟨v, p, b⟩ := o
    simp only [List.cons_append, applyMaps]
    exact ih (map t v p b)

/-- C2 counterexample.  First, a misaligned pair: mapping virtual
address `0` to physical address `0x1008` stores only the physical page
number, so `virt_to_phys` returns the page base recombined with the
virtual offset — `0x1000`, not the `0x1008` the claim requires.
Second, page granularity: after mapping virtual address `0`, the
address `8` — never itself passed to `map` — still translates (to
`0x2008`) instead of reporting not-found, because it lies on the same
virtual page. -/
theorem map_round_trip_cex :
    virt_to_phys (map [] 0 0x1008 6) 0 = some 0x1000 ∧
    some (0x1000 : Nat) ≠ some (0x1008 : Nat) ∧
    virt_to_phys (map [] 0 0x2000 6) 8 = some 0x2008 := by
  refine ⟨rfl, ?_, rfl⟩
  decide

/-- C2 (amended): for every `(v, p, bits)` passed to `map` whose
virtual page number is not remapped by a later call, `virt_to_phys`
returns the physical page base of `p` recombined with the page offset
of `v`; this equals `p` exactly when `p` and `v` agree on their 12-bit
page offsets (in particular for page-aligned pairs).  For every `w`
whose virtual page number was never mapped, `virt_to_phys` reports
not-found, the walk failing at the first invalid (absent) entry. -/
theorem map_virt_to_phys_round_trip (ops : List (Nat × Nat × Nat)) :
    (∀ l₁ v p b l₂, ops = l₁ ++ (v, p, b) :: l₂ →
      (∀ o ∈ l₂, ¬ sameVpn v o.1) →
      virt_to_phys (applyMaps ops []) v = some (p / 4096 * 4096 + v % 4096) ∧
      (p % 4096 = v % 4096 → virt_to_phys (applyMaps ops []) v = some p)) ∧
    (∀ w, (∀ o ∈ ops, ¬ sameVpn w o.1) → virt_to_phys (applyMaps ops []) w = none) := by
  constructor
  · intro l₁ v p b l₂ hops hlater
    have hmain : virt_to_phys (applyMaps ops []) v = some (p / 4096 * 4096 + v % 4096) := by
      rw [hops, applyMaps_append]
      show virt_to_phys (applyMaps ((v, p, b) :: l₂) (applyMaps l₁ [])) v = _
      simp only [applyMaps]
      exact virt_to_phys_applyMaps_preserve l₂ (map (applyMaps l₁ []) v p b) v _
        (virt_to_phys_map_self (applyMaps l₁ []) v p b) hlater
    refine ⟨hmain, ?_⟩
    intro hoff
    rw [hmain]
    congr 1
    omega
  · intro w hall
    exact virt_to_phys_applyMaps_preserve ops [] w none rfl hall

/-- Witness for `map_virt_to_phys_round_trip`: one page-aligned mapping
of virtual `0x1000` to physical `0x7000` round-trips exactly, and the
unmapped virtual address `0x5000` reports not-found. -/
theorem map_virt_to_phys_round_trip_witness :
    (virt_to_phys (applyMaps [(0x1000, 0x7000, 6)] []) 0x1000 = some 0x7000) ∧
    (virt_to_phys (applyMaps [(0x1000, 0x7000, 6)] []) 0x5000 = none) := by
  constructor
  · exact ((map_virt_to_phys_round_trip [(0x1000, 0x7000, 6)]).1
      [] 0x1000 0x7000 6 [] rfl (by intro o ho; cases ho)).2 (by decide)
  · exact (map_virt_to_phys_round_trip [(0x1000, 0x7000, 6)]).2 0x5000 (by decide)

end OsBlog
